import Mathlib

/-!
Verification development for the NeighborAEV atomic-environment-vector
computer (`torchani/neighboraev.py`).  Coordinates are modelled as exact
real triples, tensors as nested lists indexed `(conformation, atom, entry)`.
Definitions are shallow embeddings of the Python source; the few helpers
the source imports from sibling modules (`AEV._cutoff_cosine`,
`_utils.cartesian_prod`, `_utils.combinations`, the per-species lengths of
the base class and the constants container) are modelled from the spec and
marked as such in their doc comments.
-/

open scoped Classical

noncomputable section

/-- Point in 3-space, the `xyz` coordinate of one atom. -/
abbrev Point : Type := ℝ × ℝ × ℝ

/-- Componentwise difference `p - q` of two points (`neighbors - center`). -/
def sub3 (p q : Point) : Point :=
  (p.1 - q.1, p.2.1 - q.2.1, p.2.2 - q.2.2)

/-- Inner product of two 3-vectors, as in `torch.sum(u * v, dim=-1)`. -/
def dot3 (p q : Point) : ℝ :=
  p.1 * q.1 + p.2.1 * q.2.1 + p.2.2 * q.2.2

/-- Euclidean distance from `center` to `neighbor`:
`torch.sqrt(torch.sum((neighbors - center) ** 2, dim=-1))`. -/
def dist3 (center neighbor : Point) : ℝ :=
  Real.sqrt (dot3 (sub3 neighbor center) (sub3 neighbor center))

/-- Modelled from the spec: the constants container supplied by the
constants file (`self.constants` and the base-class `AEVComputer`
construction are not part of the source unit): the two cutoff radii and
the six finite sets of scalars, kept as ordered lists. -/
structure AEVConstants where
  Rcr : ℝ
  Rca : ℝ
  EtaR : List ℝ
  ShfR : List ℝ
  EtaA : List ℝ
  Zeta : List ℝ
  ShfA : List ℝ
  ShfZ : List ℝ

/-- Modelled from the spec: `AEV._cutoff_cosine` lives in `torchaev.py`,
outside the source unit; the spec defines
`fc(r, Rc) = 0.5 * cos(pi * r / Rc) + 0.5` for `r <= Rc`, else `0`. -/
def cutoff_cosine (r Rc : ℝ) : ℝ :=
  if r ≤ Rc then 0.5 * Real.cos (Real.pi * r / Rc) + 0.5 else 0

/-- Modelled from the spec: `per_species_radial_length` of the base class
(`aev_base.py`, outside the source unit) is `|EtaR| * |ShfR|`. -/
def per_species_radial_length (C : AEVConstants) : ℕ :=
  C.EtaR.length * C.ShfR.length

/-- Modelled from the spec: `per_species_angular_length` of the base class
(`aev_base.py`, outside the source unit) is
`|EtaA| * |Zeta| * |ShfA| * |ShfZ|`. -/
def per_species_angular_length (C : AEVConstants) : ℕ :=
  C.EtaA.length * C.Zeta.length * C.ShfA.length * C.ShfZ.length

/-- Summand of the radial sub-AEV for one neighbor and one `(eta, shift)`
pair: `0.25 * exp(-eta * (distances - radius_shift)**2) * fc`
(`radial_subaev`, line 56 of the source). -/
def radialTerm (C : AEVConstants) (eta shift : ℝ) (center neighbor : Point) : ℝ :=
  0.25 * Real.exp (-eta * (dist3 center neighbor - shift) ^ 2) *
    cutoff_cosine (dist3 center neighbor) C.Rcr

/-- Radial sub-AEV of a center atom over a given neighbor list, for one
conformation: the `(EtaR, ShfR)` grid of neighbor sums, flattened row-major
exactly as `ret.view(-1, per_species_radial_length())` flattens the
`(conformations, atoms, EtaR, ShfR)` shape convention. -/
def radial_subaev (C : AEVConstants) (center : Point) (neighbors : List Point) :
    List ℝ :=
  C.EtaR.flatMap fun eta =>
    C.ShfR.map fun shift =>
      (neighbors.map (radialTerm C eta shift center)).sum

/-- Argument handed to `acos` in `angular_subaev`:
`cos_angles = 0.95 * Rijk_inner_prods / Rijk_distance_prods` (line 108). -/
def cos_angles (center : Point) (pq : Point × Point) : ℝ :=
  0.95 * dot3 (sub3 pq.1 center) (sub3 pq.2 center) /
    (dist3 center pq.1 * dist3 center pq.2)

/-- Summand of the angular sub-AEV for one neighbor pair and one
`(eta, zeta, radius_shift, angle_shift)` combination (lines 109, 124-126 of
the source); the exponent `zeta` acts through the real power. -/
def angularTerm (C : AEVConstants) (eta zeta shiftR shiftA : ℝ)
    (center : Point) (pq : Point × Point) : ℝ :=
  2 * ((1 + Real.cos (Real.arccos (cos_angles center pq) - shiftA)) / 2) ^ zeta *
    Real.exp (-eta * ((dist3 center pq.1 + dist3 center pq.2) / 2 - shiftR) ^ 2) *
    cutoff_cosine (dist3 center pq.1) C.Rca *
    cutoff_cosine (dist3 center pq.2) C.Rca

/-- Angular sub-AEV of a center atom over a given neighbor-pair list, for
one conformation: the `(EtaA, Zeta, ShfA, ShfZ)` grid of pair sums,
flattened row-major as `ret.view(-1, per_species_angular_length())`. -/
def angular_subaev (C : AEVConstants) (center : Point)
    (pairs : List (Point × Point)) : List ℝ :=
  C.EtaA.flatMap fun eta =>
    C.Zeta.flatMap fun zeta =>
      C.ShfA.flatMap fun shiftR =>
        C.ShfZ.map fun shiftA =>
          (pairs.map (angularTerm C eta zeta shiftR shiftA center)).sum

/-- Number of atoms per conformation, `coordinates.shape[1]`. -/
def numAtoms (coords : List (List Point)) : ℕ :=
  (coords.headD []).length

/-- Coordinate of atom `i` in one conformation. -/
def atomPos (conf : List Point) (i : ℕ) : Point :=
  conf.getD i ((0 : ℝ), (0 : ℝ), (0 : ℝ))

/-- Number of conformations of the batch in which atoms `i` and `j` are
within `cutoff` of each other: the value `torch.sum(in_cutoff, dim=0)`
at `(i, j)` (lines 153-154 / 157-158 of the source). -/
def inCutoffCount (coords : List (List Point)) (cutoff : ℝ) (i j : ℕ) : ℕ :=
  (coords.filter fun conf => dist3 (atomPos conf i) (atomPos conf j) ≤ cutoff).length

/-- Union neighbor relation of the batch: `(sum > 0) * (1 - eye)` —
within `cutoff` in at least one conformation, and not a self pair. -/
def neighborAdj (coords : List (List Point)) (cutoff : ℝ) (i j : ℕ) : Prop :=
  0 < inCutoffCount coords cutoff i j ∧ i ≠ j

/-- Whether species label `s` occurs among the atoms: `s` is a key of
`species_selectors` / `species_neighbors` (lines 166-171 of the source). -/
def speciesPresent (coords : List (List Point)) (species : List ℕ) (s : ℕ) : Prop :=
  ∃ t ∈ List.range (numAtoms coords), species.getD t 0 = s

/-- Ascending list of indices `j` with `species[j] = s` that are neighbors
of atom `i` under `cutoff`: `species_neighbors[s][?][i, :].nonzero()`. -/
def speciesNeighborIndices (coords : List (List Point)) (species : List ℕ)
    (cutoff : ℝ) (i : ℕ) (s : ℕ) : List ℕ :=
  (List.range (numAtoms coords)).filter fun j =>
    species.getD j 0 = s ∧ neighborAdj coords cutoff i j

/-- Modelled from the spec: `_utils.cartesian_prod` (module `_utils` is
outside the source unit) pairs every element of the first list with every
element of the second. -/
def cartesian_prod (l1 l2 : List ℕ) : List (ℕ × ℕ) :=
  l1.flatMap fun a => l2.map fun b => (a, b)

/-- Modelled from the spec: `_utils.combinations` with `r = 2` (module
`_utils` is outside the source unit) lists the 2-element combinations
without repetition and without order, in positional order. -/
def combinations2 : List ℕ → List (ℕ × ℕ)
  | [] => []
  | x :: xs => (xs.map fun y => (x, y)) ++ combinations2 xs

/-- Enumeration order of `itertools.combinations_with_replacement(l, 2)`. -/
def combinations_with_replacement2 : List ℕ → List (ℕ × ℕ)
  | [] => []
  | x :: xs => ((x, x) :: xs.map fun y => (x, y)) ++ combinations_with_replacement2 xs

/-- Coordinates of the two atoms of an index pair within a conformation. -/
def pairPositions (conf : List Point) (pr : ℕ × ℕ) : Point × Point :=
  (atomPos conf pr.1, atomPos conf pr.2)

/-- Per-species radial block of atom `i` in conformation `b`
(lines 185-202 of the source): the radial sub-AEV over the species-`s`
union neighbors, or the zero vector when the species is absent or the
index list is empty. -/
def radialBlock (C : AEVConstants) (coords : List (List Point))
    (species : List ℕ) (b i : ℕ) (s : ℕ) : List ℝ :=
  if speciesPresent coords species s then
    let inds := speciesNeighborIndices coords species C.Rcr i s
    if inds ≠ [] then
      radial_subaev C (atomPos (coords.getD b []) i)
        (inds.map fun j => atomPos (coords.getD b []) j)
    else List.replicate (per_species_radial_length C) 0
  else List.replicate (per_species_radial_length C) 0

/-- Per-species-pair angular block of atom `i` in conformation `b`
(lines 210-240 of the source), with the exact branch structure of the
code: cross-species cartesian product, same-species combinations, zero
vector otherwise. -/
def angularBlock (C : AEVConstants) (coords : List (List Point))
    (species : List ℕ) (b i : ℕ) (j k : ℕ) : List ℝ :=
  if speciesPresent coords species j ∧ speciesPresent coords species k then
    let indsJ := speciesNeighborIndices coords species C.Rca i j
    if j ≠ k ∧ indsJ ≠ [] then
      let indsK := speciesNeighborIndices coords species C.Rca i k
      if indsK ≠ [] then
        angular_subaev C (atomPos (coords.getD b []) i)
          ((cartesian_prod indsJ indsK).map (pairPositions (coords.getD b [])))
      else List.replicate (per_species_angular_length C) 0
    else if 1 < indsJ.length then
      angular_subaev C (atomPos (coords.getD b []) i)
        ((combinations2 indsJ).map (pairPositions (coords.getD b [])))
    else List.replicate (per_species_angular_length C) 0
  else List.replicate (per_species_angular_length C) 0

/-- Radial AEV output of `NeighborAEV.__call__`: entry `[b][i]` is the
concatenation, in vocabulary order, of atom `i`'s per-species radial
blocks for conformation `b` (`torch.cat` along the feature dimension,
`torch.stack` along the atom dimension). -/
def radialAEVs (C : AEVConstants) (vocab : List ℕ)
    (coords : List (List Point)) (species : List ℕ) : List (List (List ℝ)) :=
  (List.range coords.length).map fun b =>
    (List.range (numAtoms coords)).map fun i =>
      vocab.flatMap fun s => radialBlock C coords species b i s

/-- Angular AEV output of `NeighborAEV.__call__`: entry `[b][i]` is the
concatenation, over the species pairs with replacement in enumeration
order, of atom `i`'s per-pair angular blocks for conformation `b`. -/
def angularAEVs (C : AEVConstants) (vocab : List ℕ)
    (coords : List (List Point)) (species : List ℕ) : List (List (List ℝ)) :=
  (List.range coords.length).map fun b =>
    (List.range (numAtoms coords)).map fun i =>
      (combinations_with_replacement2 vocab).flatMap fun jk =>
        angularBlock C coords species b i jk.1 jk.2

/-- Concrete constants for evaluation: both cutoffs 5, one value in each
constant set. -/
def exConsts : AEVConstants := ⟨5, 5, [16], [1], [8], [2], [1], [1]⟩

/-- Concrete constants for the angular scenario: `EtaA = {0}`, `Zeta = {1}`,
`ShfA = {0}`, `ShfZ = {0}`, cutoffs 5. -/
def exConstsAng : AEVConstants := ⟨5, 5, [16], [1], [0], [1], [0], [0]⟩

/-- Concrete one-conformation batch: two atoms at distance 1 on the x axis. -/
def exConf1 : List (List Point) := [[(0, 0, 0), ((1 : ℝ), 0, 0)]]

/-- Concrete two-conformation batch: atom 1 is within the cutoff 5 of atom 0
in the first conformation (distance 1) but not in the second (distance 10). -/
def exCoords2 : List (List Point) :=
  [[(0, 0, 0), ((1 : ℝ), 0, 0)], [(0, 0, 0), ((10 : ℝ), 0, 0)]]

/-! ### Generic list lemmas -/

lemma getD_append_lt {α : Type} (l1 l2 : List α) (n : ℕ) (d : α) (h : n < l1.length) :
    (l1 ++ l2).getD n d = l1.getD n d := by
  rw [List.getD_eq_getElem _ _ h, List.getD_eq_getElem _ _ (by simp; omega),
    List.getElem_append_left]

lemma getD_append_add {α : Type} (l1 l2 : List α) (n : ℕ) (d : α) (h : n < l2.length) :
    (l1 ++ l2).getD (l1.length + n) d = l2.getD n d := by
  rw [List.getD_eq_getElem _ _ h, List.getD_eq_getElem _ _ (by simp; omega)]
  rw [List.getElem_append_right] <;> simp

lemma getD_map_range {α : Type} (f : ℕ → α) (n b : ℕ) (d : α) (h : b < n) :
    ((List.range n).map f).getD b d = f b := by
  rw [List.getD_eq_getElem _ _ (by simpa using h)]
  simp

lemma length_flatMap_const {α β : Type} (l : List α) (f : α → List β) (L : ℕ)
    (h : ∀ a ∈ l, (f a).length = L) : (l.flatMap f).length = l.length * L := by
  induction l with
  | nil => simp
  | cons x xs ih =>
    simp only [List.flatMap_cons, List.length_append, List.length_cons]
    rw [h x (by simp), ih (fun a ha => h a (by simp [ha])), Nat.succ_mul, Nat.add_comm]

lemma flatMap_replicate_zero {α : Type} (l : List α) (f : α → List ℝ) (n : ℕ)
    (h : ∀ a ∈ l, f a = List.replicate n 0) : l.flatMap f = List.replicate (l.length * n) 0 := by
  induction l with
  | nil => simp
  | cons x xs ih =>
    simp only [List.flatMap_cons, List.length_cons]
    rw [h x (by simp), ih (fun a ha => h a (by simp [ha])), Nat.succ_mul, Nat.add_comm,
      List.replicate_add]

lemma getD_flatMap_grid (l : List ℝ) (f : ℝ → List ℝ) (L : ℕ)
    (hL : ∀ a ∈ l, (f a).length = L) (i j : ℕ) (hi : i < l.length) (hj : j < L) :
    (l.flatMap f).getD (i * L + j) 0 = (f (l.getD i 0)).getD j 0 := by
  induction l generalizing i with
  | nil => simp at hi
  | cons x xs ih =>
    cases i with
    | zero =>
      simp only [List.flatMap_cons, Nat.zero_mul, Nat.zero_add]
      rw [getD_append_lt _ _ _ _ (by rw [hL x (by simp)]; exact hj)]
      rfl
    | succ i =>
      have hlen : i * L + j < (xs.flatMap f).length := by
        rw [length_flatMap_const xs f L (fun a ha => hL a (by simp [ha]))]
        have h1 : i * L + j < (i + 1) * L := by
          rw [Nat.succ_mul]
          exact Nat.add_lt_add_left hj _
        exact lt_of_lt_of_le h1
          (Nat.mul_le_mul_right _ (Nat.succ_le_of_lt (by simpa using hi)))
      simp only [List.flatMap_cons]
      have harith : (i + 1) * L + j = (f x).length + (i * L + j) := by
        rw [hL x (by simp), Nat.succ_mul]
        omega
      rw [harith, getD_append_add _ _ _ _ hlen,
        ih (fun a ha => hL a (by simp [ha])) i (by simpa using hi)]
      rfl

lemma sum_map_filter_eq {α : Type} (l : List α) (f : α → ℝ) (p : α → Prop)
    (h : ∀ a ∈ l, ¬ p a → f a = 0) :
    (((l.filter fun a => p a)).map f).sum = (l.map f).sum := by
  induction l with
  | nil => simp
  | cons x xs ih =>
    by_cases hx : p x
    · rw [List.filter_cons_of_pos (by simpa using hx)]
      simp only [List.map_cons, List.sum_cons]
      rw [ih (fun a ha => h a (by simp [ha]))]
    · rw [List.filter_cons_of_neg (by simpa using hx)]
      simp only [List.map_cons, List.sum_cons]
      rw [ih (fun a ha => h a (by simp [ha])), h x (by simp) hx, zero_add]

lemma mem_cartesian_prod (l1 l2 : List ℕ) (pr : ℕ × ℕ) :
    pr ∈ cartesian_prod l1 l2 ↔ pr.1 ∈ l1 ∧ pr.2 ∈ l2 := by
  obtain ⟨a, b⟩ := pr
  simp only [cartesian_prod, List.mem_flatMap, List.mem_map, Prod.mk.injEq]
  constructor
  · rintro ⟨x, hx, y, hy, rfl, rfl⟩
    exact ⟨hx, hy⟩
  · rintro ⟨ha, hb⟩
    exact ⟨a, ha, b, hb, rfl, rfl⟩

lemma sum_map_cartesian (J K : List ℕ) (f : ℕ × ℕ → ℝ) :
    ((cartesian_prod J K).map f).sum = (J.map fun a => (K.map fun b => f (a, b)).sum).sum := by
  induction J with
  | nil => simp [cartesian_prod]
  | cons x xs ih =>
    simp only [cartesian_prod, List.flatMap_cons, List.map_append, List.sum_append,
      List.map_map, List.map_cons, List.sum_cons] at *
    rw [ih]
    rfl

lemma sum_cartesian_filter (J K : List ℕ) (f : ℕ × ℕ → ℝ) (P : ℕ → Prop)
    (h : ∀ a b, ¬ (P a ∧ P b) → f (a, b) = 0) :
    ((cartesian_prod (J.filter fun a => P a) (K.filter fun a => P a)).map f).sum
      = ((cartesian_prod J K).map f).sum := by
  rw [sum_map_cartesian, sum_map_cartesian]
  have hinner : ∀ a, ((K.filter fun b => P b).map fun b => f (a, b)).sum
      = (K.map fun b => f (a, b)).sum := fun a =>
    sum_map_filter_eq K _ P (fun b _ hb => h a b (fun hc => hb hc.2))
  calc ((J.filter fun a => P a).map fun a =>
          ((K.filter fun b => P b).map fun b => f (a, b)).sum).sum
      = ((J.filter fun a => P a).map fun a => (K.map fun b => f (a, b)).sum).sum := by
        exact congrArg _ (List.map_congr_left fun a _ => hinner a)
    _ = (J.map fun a => (K.map fun b => f (a, b)).sum).sum := by
        refine sum_map_filter_eq J _ P (fun a _ ha => List.sum_eq_zero ?_)
        intro x hx
        obtain ⟨b, _, rfl⟩ := List.mem_map.mp hx
        exact h a b (fun hc => ha hc.1)

lemma sum_combinations2_filter (J : List ℕ) (f : ℕ × ℕ → ℝ) (P : ℕ → Prop)
    (h : ∀ a b, ¬ (P a ∧ P b) → f (a, b) = 0) :
    ((combinations2 (J.filter fun a => P a)).map f).sum = ((combinations2 J).map f).sum := by
  induction J with
  | nil => simp
  | cons x xs ih =>
    by_cases hx : P x
    · rw [List.filter_cons_of_pos (by simpa using hx)]
      simp only [combinations2, List.map_append, List.sum_append, List.map_map]
      rw [ih]
      congr 1
      have hcomp : ∀ b ∈ xs, ¬ P b → (f ∘ fun y => (x, y)) b = 0 :=
        fun b _ hb => h x b (fun hc => hb hc.2)
      exact sum_map_filter_eq xs (f ∘ fun y => (x, y)) P hcomp
    · rw [List.filter_cons_of_neg (by simpa using hx)]
      simp only [combinations2, List.map_append, List.sum_append, List.map_map]
      rw [ih]
      have hz : (xs.map (f ∘ fun y => (x, y))).sum = 0 := by
        refine List.sum_eq_zero ?_
        intro v hv
        obtain ⟨b, _, rfl⟩ := List.mem_map.mp hv
        exact h x b (fun hc => hx hc.1)
      rw [hz, zero_add]

lemma mem_combinations2 (l : List ℕ) (hl : l.Nodup) (pr : ℕ × ℕ)
    (h : pr ∈ combinations2 l) : pr.1 ∈ l ∧ pr.2 ∈ l ∧ pr.1 ≠ pr.2 := by
  induction l with
  | nil => simp [combinations2] at h
  | cons x xs ih =>
    simp only [combinations2, List.mem_append, List.mem_map] at h
    rcases h with ⟨y, hy, rfl⟩ | h
    · refine ⟨by simp, by simp [hy], ?_⟩
      simp only [ne_eq]
      intro hxy
      rw [List.nodup_cons] at hl
      exact hl.1 (hxy ▸ hy)
    · obtain ⟨h1, h2, h3⟩ := ih (List.nodup_cons.mp hl).2 h
      exact ⟨by simp [h1], by simp [h2], h3⟩

lemma combinations2_eq_nil (l : List ℕ) : combinations2 l = [] ↔ l.length ≤ 1 := by
  match l with
  | [] => simp [combinations2]
  | [x] => simp [combinations2]
  | x :: y :: xs => simp [combinations2]

lemma cartesian_prod_eq_nil (l1 l2 : List ℕ) :
    cartesian_prod l1 l2 = [] ↔ l1 = [] ∨ l2 = [] := by
  match l1 with
  | [] => simp [cartesian_prod]
  | x :: xs =>
    simp only [cartesian_prod, List.flatMap_cons, List.append_eq_nil, List.map_eq_nil_iff]
    constructor
    · rintro ⟨h1, _⟩
      exact Or.inr h1
    · rintro (h | h)
      · simp at h
      · subst h
        simp [cartesian_prod]

lemma two_le_length_of_mem_ne (l : List ℕ) (a b : ℕ) (ha : a ∈ l) (hb : b ∈ l)
    (hab : a ≠ b) : 2 ≤ l.length := by
  match l with
  | [] => simp at ha
  | [x] =>
    simp only [List.mem_singleton] at ha hb
    exact absurd (ha.trans hb.symm) hab
  | x :: y :: xs => simp

lemma length_combinations_with_replacement2 (l : List ℕ) :
    (combinations_with_replacement2 l).length = Nat.choose (l.length + 1) 2 := by
  induction l with
  | nil => simp [combinations_with_replacement2]
  | cons x xs ih =>
    simp only [combinations_with_replacement2, List.length_append, List.length_cons,
      List.length_map, ih]
    rw [Nat.choose_succ_succ (xs.length + 1) 1, Nat.choose_one_right]

lemma getD_mem_of_lt {α : Type} (l : List α) (b : ℕ) (d : α) (h : b < l.length) :
    l.getD b d ∈ l := by
  rw [List.getD_eq_getElem _ _ h]
  exact List.getElem_mem h

/-! ### Cutoff, term and sub-AEV lemmas -/

lemma cutoff_cosine_of_gt (r Rc : ℝ) (h : Rc < r) : cutoff_cosine r Rc = 0 :=
  if_neg (not_le.mpr h)

lemma radialTerm_of_far (C : AEVConstants) (eta shift : ℝ) (c n : Point)
    (h : C.Rcr < dist3 c n) : radialTerm C eta shift c n = 0 := by
  rw [radialTerm, cutoff_cosine_of_gt _ _ h, mul_zero]

lemma angularTerm_of_far (C : AEVConstants) (eta zeta shiftR shiftA : ℝ)
    (c : Point) (pq : Point × Point)
    (h : C.Rca < dist3 c pq.1 ∨ C.Rca < dist3 c pq.2) :
    angularTerm C eta zeta shiftR shiftA c pq = 0 := by
  rcases h with h | h
  · rw [angularTerm, cutoff_cosine_of_gt _ _ h, mul_zero, zero_mul]
  · rw [angularTerm, cutoff_cosine_of_gt _ _ h, mul_zero]

lemma radial_subaev_congr (C : AEVConstants) (c : Point) (ns ms : List Point)
    (h : ∀ eta shift : ℝ, (ns.map (radialTerm C eta shift c)).sum
      = (ms.map (radialTerm C eta shift c)).sum) :
    radial_subaev C c ns = radial_subaev C c ms := by
  unfold radial_subaev
  exact congrArg (fun f => C.EtaR.flatMap f)
    (funext fun eta => congrArg (fun g => C.ShfR.map g)
      (funext fun shift => h eta shift))

lemma radial_subaev_zero (C : AEVConstants) (c : Point) (ns : List Point)
    (h : ∀ eta shift : ℝ, (ns.map (radialTerm C eta shift c)).sum = 0) :
    radial_subaev C c ns = List.replicate (per_species_radial_length C) 0 := by
  unfold radial_subaev per_species_radial_length
  refine flatMap_replicate_zero _ _ _ ?_
  intro eta _
  have heq : (C.ShfR.map fun shift => (ns.map (radialTerm C eta shift c)).sum)
      = C.ShfR.map fun _ => (0 : ℝ) :=
    List.map_congr_left fun shift _ => h eta shift
  rw [heq, List.map_const']

lemma angular_subaev_congr (C : AEVConstants) (c : Point)
    (ps qs : List (Point × Point))
    (h : ∀ eta zeta shiftR shiftA : ℝ,
      (ps.map (angularTerm C eta zeta shiftR shiftA c)).sum
        = (qs.map (angularTerm C eta zeta shiftR shiftA c)).sum) :
    angular_subaev C c ps = angular_subaev C c qs := by
  unfold angular_subaev
  exact congrArg (fun f => C.EtaA.flatMap f)
    (funext fun eta => congrArg (fun f => C.Zeta.flatMap f)
      (funext fun zeta => congrArg (fun f => C.ShfA.flatMap f)
        (funext fun shiftR => congrArg (fun g => C.ShfZ.map g)
          (funext fun shiftA => h eta zeta shiftR shiftA))))

lemma angular_subaev_zero (C : AEVConstants) (c : Point)
    (ps : List (Point × Point))
    (h : ∀ eta zeta shiftR shiftA : ℝ,
      (ps.map (angularTerm C eta zeta shiftR shiftA c)).sum = 0) :
    angular_subaev C c ps = List.replicate (per_species_angular_length C) 0 := by
  unfold angular_subaev
  have hlen : per_species_angular_length C
      = C.EtaA.length * (C.Zeta.length * (C.ShfA.length * C.ShfZ.length)) := by
    unfold per_species_angular_length
    ring
  rw [hlen]
  refine flatMap_replicate_zero _ _ _ ?_
  intro eta _
  refine flatMap_replicate_zero _ _ _ ?_
  intro zeta _
  refine flatMap_replicate_zero _ _ _ ?_
  intro shiftR _
  have heq : (C.ShfZ.map fun shiftA =>
      (ps.map (angularTerm C eta zeta shiftR shiftA c)).sum)
      = C.ShfZ.map fun _ => (0 : ℝ) :=
    List.map_congr_left fun shiftA _ => h eta zeta shiftR shiftA
  rw [heq, List.map_const']

/-! ### Neighbor relation lemmas -/

lemma neighborAdj_iff (coords : List (List Point)) (cutoff : ℝ) (i j : ℕ) :
    neighborAdj coords cutoff i j ↔
      (i ≠ j ∧ ∃ conf ∈ coords, dist3 (atomPos conf i) (atomPos conf j) ≤ cutoff) := by
  unfold neighborAdj inCutoffCount
  rw [List.length_pos_iff_exists_mem]
  constructor
  · rintro ⟨⟨conf, hconf⟩, hij⟩
    rw [List.mem_filter] at hconf
    exact ⟨hij, conf, hconf.1, by simpa using hconf.2⟩
  · rintro ⟨hij, conf, hc, hd⟩
    exact ⟨⟨conf, List.mem_filter.mpr ⟨hc, by simpa using hd⟩⟩, hij⟩

lemma neighborAdj_singleton (conf : List Point) (cutoff : ℝ) (i j : ℕ) :
    neighborAdj [conf] cutoff i j ↔
      (dist3 (atomPos conf i) (atomPos conf j) ≤ cutoff ∧ i ≠ j) := by
  rw [neighborAdj_iff]
  constructor
  · rintro ⟨hij, c, hc, hd⟩
    rw [List.mem_singleton] at hc
    exact ⟨hc ▸ hd, hij⟩
  · rintro ⟨hd, hij⟩
    exact ⟨hij, conf, List.mem_singleton.mpr rfl, hd⟩

lemma numAtoms_singleton (conf : List Point) : numAtoms [conf] = conf.length := rfl

lemma speciesPresent_singleton (coords : List (List Point)) (species : List ℕ) (s : ℕ)
    (conf : List Point) (hconf : conf.length = numAtoms coords) :
    speciesPresent [conf] species s ↔ speciesPresent coords species s := by
  unfold speciesPresent
  rw [numAtoms_singleton, hconf]

lemma speciesNeighborIndices_singleton (coords : List (List Point)) (species : List ℕ)
    (cutoff : ℝ) (i s b : ℕ) (hb : b < coords.length)
    (hA : ∀ conf ∈ coords, conf.length = numAtoms coords) :
    speciesNeighborIndices [coords.getD b []] species cutoff i s
      = (speciesNeighborIndices coords species cutoff i s).filter fun j =>
          dist3 (atomPos (coords.getD b []) i) (atomPos (coords.getD b []) j) ≤ cutoff := by
  have hmem : coords.getD b [] ∈ coords := getD_mem_of_lt coords b [] hb
  have hlen : numAtoms [coords.getD b []] = numAtoms coords := by
    rw [numAtoms_singleton]
    exact hA _ hmem
  unfold speciesNeighborIndices
  rw [hlen, List.filter_filter]
  apply List.filter_congr
  intro j hj
  have hiff : (species.getD j 0 = s ∧ neighborAdj [coords.getD b []] cutoff i j) ↔
      (dist3 (atomPos (coords.getD b []) i) (atomPos (coords.getD b []) j) ≤ cutoff ∧
        (species.getD j 0 = s ∧ neighborAdj coords cutoff i j)) := by
    rw [neighborAdj_singleton, neighborAdj_iff]
    constructor
    · rintro ⟨hs, hd, hij⟩
      exact ⟨hd, hs, hij, coords.getD b [], hmem, hd⟩
    · rintro ⟨hd, hs, hij, _⟩
      exact ⟨hs, hd, hij⟩
  calc (decide (species.getD j 0 = s ∧ neighborAdj [coords.getD b []] cutoff i j))
      = decide (dist3 (atomPos (coords.getD b []) i) (atomPos (coords.getD b []) j) ≤ cutoff ∧
          (species.getD j 0 = s ∧ neighborAdj coords cutoff i j)) := decide_eq_decide.mpr hiff
    _ = _ := by
        by_cases h1 : dist3 (atomPos (coords.getD b []) i) (atomPos (coords.getD b []) j) ≤ cutoff <;>
          by_cases h2 : species.getD j 0 = s ∧ neighborAdj coords cutoff i j <;>
            simp [h1, h2]

/-! ### Union-neighbor-list equivalence, per block -/

lemma radialBlock_singleton (C : AEVConstants) (coords : List (List Point))
    (species : List ℕ) (b i s : ℕ) (hb : b < coords.length)
    (hA : ∀ conf ∈ coords, conf.length = numAtoms coords) :
    radialBlock C [coords.getD b []] species 0 i s = radialBlock C coords species b i s := by
  have hmem : coords.getD b [] ∈ coords := getD_mem_of_lt coords b [] hb
  have hpres := speciesPresent_singleton coords species s (coords.getD b []) (hA _ hmem)
  have hinds := speciesNeighborIndices_singleton coords species C.Rcr i s b hb hA
  have hget : ([coords.getD b []] : List (List Point)).getD 0 [] = coords.getD b [] := rfl
  unfold radialBlock
  by_cases hp : speciesPresent coords species s
  · rw [if_pos (hpres.mpr hp), if_pos hp]
    simp only [hget, hinds]
    by_cases hempty : speciesNeighborIndices coords species C.Rcr i s = []
    · rw [hempty]
      simp
    · rw [if_pos hempty]
      by_cases hSempty : (speciesNeighborIndices coords species C.Rcr i s).filter
          (fun j => dist3 (atomPos (coords.getD b []) i) (atomPos (coords.getD b []) j) ≤ C.Rcr)
          = []
      · rw [hSempty]
        simp only [ne_eq, not_true_eq_false, if_false, List.map_nil]
        symm
        refine radial_subaev_zero C _ _ ?_
        intro eta shift
        rw [List.map_map]
        refine List.sum_eq_zero ?_
        intro v hv
        obtain ⟨j, hj, rfl⟩ := List.mem_map.mp hv
        have hfar := (List.filter_eq_nil_iff.mp hSempty) j hj
        simp only [decide_eq_true_eq] at hfar
        exact radialTerm_of_far C eta shift _ _ (not_le.mp hfar)
      · rw [if_pos hSempty]
        refine radial_subaev_congr C _ _ _ ?_
        intro eta shift
        rw [List.map_map, List.map_map]
        refine sum_map_filter_eq _ _ _ ?_
        intro j _ hj
        simp only [Function.comp_apply]
        exact radialTerm_of_far C eta shift _ _ (not_le.mp hj)
  · rw [if_neg (fun hc => hp (hpres.mp hc)), if_neg hp]

lemma angular_branch_singleton (C : AEVConstants) (conf : List Point) (i : ℕ)
    (sj sk : ℕ) (JB KB : List ℕ) (hJn : JB.Nodup) (P : ℕ → Prop)
    (hP : ∀ a, ¬ P a → C.Rca < dist3 (atomPos conf i) (atomPos conf a)) :
    (if sj ≠ sk ∧ JB.filter (fun a => P a) ≠ [] then
       if KB.filter (fun a => P a) ≠ [] then
         angular_subaev C (atomPos conf i)
           ((cartesian_prod (JB.filter fun a => P a) (KB.filter fun a => P a)).map
             (pairPositions conf))
       else List.replicate (per_species_angular_length C) 0
     else if 1 < (JB.filter fun a => P a).length then
       angular_subaev C (atomPos conf i)
         ((combinations2 (JB.filter fun a => P a)).map (pairPositions conf))
     else List.replicate (per_species_angular_length C) 0)
    = (if sj ≠ sk ∧ JB ≠ [] then
         if KB ≠ [] then
           angular_subaev C (atomPos conf i)
             ((cartesian_prod JB KB).map (pairPositions conf))
         else List.replicate (per_species_angular_length C) 0
       else if 1 < JB.length then
         angular_subaev C (atomPos conf i) ((combinations2 JB).map (pairPositions conf))
       else List.replicate (per_species_angular_length C) 0) := by
  have hvan : ∀ (eta zeta shiftR shiftA : ℝ) (pr : ℕ × ℕ), ¬ (P pr.1 ∧ P pr.2) →
      angularTerm C eta zeta shiftR shiftA (atomPos conf i) (pairPositions conf pr) = 0 := by
    intro eta zeta shiftR shiftA pr hpr
    refine angularTerm_of_far C eta zeta shiftR shiftA _ _ ?_
    rcases not_and_or.mp hpr with h | h
    · exact Or.inl (hP _ h)
    · exact Or.inr (hP _ h)
  by_cases hjk : sj = sk
  · subst hjk
    simp only [ne_eq, not_true_eq_false, false_and, if_false]
    by_cases h2 : 1 < (JB.filter fun a => P a).length
    · rw [if_pos h2, if_pos (lt_of_lt_of_le h2 (List.length_filter_le _ _))]
      refine angular_subaev_congr C _ _ _ ?_
      intro eta zeta shiftR shiftA
      rw [List.map_map, List.map_map]
      exact sum_combinations2_filter JB _ P
        (fun a c hac => hvan eta zeta shiftR shiftA (a, c) hac)
    · rw [if_neg h2]
      by_cases h3 : 1 < JB.length
      · rw [if_pos h3]
        symm
        refine angular_subaev_zero C _ _ ?_
        intro eta zeta shiftR shiftA
        rw [List.map_map]
        refine List.sum_eq_zero ?_
        intro v hv
        obtain ⟨pr, hpr, rfl⟩ := List.mem_map.mp hv
        obtain ⟨hm1, hm2, hne⟩ := mem_combinations2 JB hJn pr hpr
        refine hvan eta zeta shiftR shiftA pr ?_
        rintro ⟨hp1, hp2⟩
        have h2le : 2 ≤ ((JB.filter fun a => P a)).length :=
          two_le_length_of_mem_ne _ pr.1 pr.2
            (List.mem_filter.mpr ⟨hm1, by simpa using hp1⟩)
            (List.mem_filter.mpr ⟨hm2, by simpa using hp2⟩) hne
        omega
      · rw [if_neg h3]
  · have hcartzero : (KB.filter (fun a => P a) = [] ∨ JB.filter (fun a => P a) = []) →
        angular_subaev C (atomPos conf i) ((cartesian_prod JB KB).map (pairPositions conf))
          = List.replicate (per_species_angular_length C) 0 := by
      intro hcase
      refine angular_subaev_zero C _ _ ?_
      intro eta zeta shiftR shiftA
      rw [List.map_map]
      refine List.sum_eq_zero ?_
      intro v hv
      obtain ⟨pr, hpr, rfl⟩ := List.mem_map.mp hv
      rcases hcase with hKS | hJS
      · have hm2 : pr.2 ∈ KB := ((mem_cartesian_prod JB KB pr).mp hpr).2
        have hnp : ¬ P pr.2 := by
          have := List.filter_eq_nil_iff.mp hKS pr.2 hm2
          simpa using this
        exact hvan eta zeta shiftR shiftA pr (fun hc => hnp hc.2)
      · have hm1 : pr.1 ∈ JB := ((mem_cartesian_prod JB KB pr).mp hpr).1
        have hnp : ¬ P pr.1 := by
          have := List.filter_eq_nil_iff.mp hJS pr.1 hm1
          simpa using this
        exact hvan eta zeta shiftR shiftA pr (fun hc => hnp hc.1)
    by_cases hJS : JB.filter (fun a => P a) = []
    · rw [if_neg (fun hc => hc.2 hJS), if_neg (by rw [hJS]; simp)]
      by_cases hJB : JB = []
      · rw [if_neg (fun hc => hc.2 hJB), if_neg (by rw [hJB]; simp)]
      · rw [if_pos ⟨hjk, hJB⟩]
        by_cases hKB : KB = []
        · rw [if_neg (by rw [hKB]; simp)]
        · rw [if_pos hKB]
          exact (hcartzero (Or.inr hJS)).symm
    · have hJB : JB ≠ [] := fun h => hJS (by rw [h]; simp)
      rw [if_pos ⟨hjk, hJS⟩]
      by_cases hKS : KB.filter (fun a => P a) = []
      · rw [if_neg (fun hc => hc hKS), if_pos ⟨hjk, hJB⟩]
        by_cases hKB : KB = []
        · rw [if_neg (by rw [hKB]; simp)]
        · rw [if_pos hKB]
          exact (hcartzero (Or.inl hKS)).symm
      · have hKB : KB ≠ [] := fun h => hKS (by rw [h]; simp)
        rw [if_pos hKS, if_pos ⟨hjk, hJB⟩, if_pos hKB]
        refine angular_subaev_congr C _ _ _ ?_
        intro eta zeta shiftR shiftA
        rw [List.map_map, List.map_map]
        exact sum_cartesian_filter JB KB _ P
          (fun a c hac => hvan eta zeta shiftR shiftA (a, c) hac)

lemma angularBlock_singleton (C : AEVConstants) (coords : List (List Point))
    (species : List ℕ) (b i sj sk : ℕ) (hb : b < coords.length)
    (hA : ∀ conf ∈ coords, conf.length = numAtoms coords) :
    angularBlock C [coords.getD b []] species 0 i sj sk
      = angularBlock C coords species b i sj sk := by
  have hmem : coords.getD b [] ∈ coords := getD_mem_of_lt coords b [] hb
  have hpJ := speciesPresent_singleton coords species sj (coords.getD b []) (hA _ hmem)
  have hpK := speciesPresent_singleton coords species sk (coords.getD b []) (hA _ hmem)
  have hindsJ := speciesNeighborIndices_singleton coords species C.Rca i sj b hb hA
  have hindsK := speciesNeighborIndices_singleton coords species C.Rca i sk b hb hA
  have hget : ([coords.getD b []] : List (List Point)).getD 0 [] = coords.getD b [] := rfl
  unfold angularBlock
  by_cases hp : speciesPresent coords species sj ∧ speciesPresent coords species sk
  · rw [if_pos ((and_congr hpJ hpK).mpr hp), if_pos hp]
    simp only [hget, hindsJ, hindsK]
    exact angular_branch_singleton C (coords.getD b []) i sj sk
      (speciesNeighborIndices coords species C.Rca i sj)
      (speciesNeighborIndices coords species C.Rca i sk)
      ((List.nodup_range _).filter _)
      (fun a => dist3 (atomPos (coords.getD b []) i) (atomPos (coords.getD b []) a) ≤ C.Rca)
      (fun a ha => not_le.mp ha)
  · rw [if_neg (fun hc => hp ((and_congr hpJ hpK).mp hc)), if_neg hp]

/-! ### Row extraction and length lemmas -/

lemma radialAEVs_getD (C : AEVConstants) (vocab : List ℕ) (coords : List (List Point))
    (species : List ℕ) (b : ℕ) (hb : b < coords.length) :
    (radialAEVs C vocab coords species).getD b []
      = (List.range (numAtoms coords)).map fun i =>
          vocab.flatMap fun s => radialBlock C coords species b i s := by
  unfold radialAEVs
  exact getD_map_range _ _ _ _ hb

lemma angularAEVs_getD (C : AEVConstants) (vocab : List ℕ) (coords : List (List Point))
    (species : List ℕ) (b : ℕ) (hb : b < coords.length) :
    (angularAEVs C vocab coords species).getD b []
      = (List.range (numAtoms coords)).map fun i =>
          (combinations_with_replacement2 vocab).flatMap fun jk =>
            angularBlock C coords species b i jk.1 jk.2 := by
  unfold angularAEVs
  exact getD_map_range _ _ _ _ hb

lemma length_radial_subaev (C : AEVConstants) (c : Point) (ns : List Point) :
    (radial_subaev C c ns).length = per_species_radial_length C := by
  unfold radial_subaev per_species_radial_length
  exact length_flatMap_const _ _ _ (fun eta _ => by simp)

lemma length_angular_subaev (C : AEVConstants) (c : Point) (ps : List (Point × Point)) :
    (angular_subaev C c ps).length = per_species_angular_length C := by
  unfold angular_subaev
  have hlen : per_species_angular_length C
      = C.EtaA.length * (C.Zeta.length * (C.ShfA.length * C.ShfZ.length)) := by
    unfold per_species_angular_length
    ring
  rw [hlen]
  refine length_flatMap_const _ _ _ ?_
  intro eta _
  refine length_flatMap_const _ _ _ ?_
  intro zeta _
  refine length_flatMap_const _ _ _ ?_
  intro shiftR _
  simp

lemma length_radialBlock (C : AEVConstants) (coords : List (List Point))
    (species : List ℕ) (b i s : ℕ) :
    (radialBlock C coords species b i s).length = per_species_radial_length C := by
  simp only [radialBlock]
  split_ifs <;> simp [length_radial_subaev]

lemma length_angularBlock (C : AEVConstants) (coords : List (List Point))
    (species : List ℕ) (b i sj sk : ℕ) :
    (angularBlock C coords species b i sj sk).length = per_species_angular_length C := by
  simp only [angularBlock]
  split_ifs <;> simp [length_angular_subaev]

/-! ### Claim theorems -/

/-- C1: on every input, the radial output has one row per conformation and
one entry per atom, each radial AEV has length `S * per_species_radial_length`
and each angular AEV has length `C(S+1,2) * per_species_angular_length`,
with the per-species lengths `|EtaR|*|ShfR|` and `|EtaA|*|Zeta|*|ShfA|*|ShfZ|`;
the lengths depend only on the vocabulary size and the constant-set sizes,
never on the neighbors actually present. -/
theorem C1_output_shapes (C : AEVConstants) (vocab : List ℕ)
    (coords : List (List Point)) (species : List ℕ) (b i : ℕ)
    (hb : b < coords.length) (hi : i < numAtoms coords) :
    (radialAEVs C vocab coords species).length = coords.length ∧
    (angularAEVs C vocab coords species).length = coords.length ∧
    ((radialAEVs C vocab coords species).getD b []).length = numAtoms coords ∧
    ((angularAEVs C vocab coords species).getD b []).length = numAtoms coords ∧
    (((radialAEVs C vocab coords species).getD b []).getD i []).length
      = vocab.length * per_species_radial_length C ∧
    (((angularAEVs C vocab coords species).getD b []).getD i []).length
      = Nat.choose (vocab.length + 1) 2 * per_species_angular_length C := by
  refine ⟨by simp [radialAEVs], by simp [angularAEVs], ?_, ?_, ?_, ?_⟩
  · rw [radialAEVs_getD C vocab coords species b hb]
    simp
  · rw [angularAEVs_getD C vocab coords species b hb]
    simp
  · rw [radialAEVs_getD C vocab coords species b hb, getD_map_range _ _ _ _ hi]
    exact length_flatMap_const _ _ _ (fun s _ => length_radialBlock C coords species b i s)
  · rw [angularAEVs_getD C vocab coords species b hb, getD_map_range _ _ _ _ hi]
    rw [length_flatMap_const _ _ (per_species_angular_length C)
      (fun jk _ => length_angularBlock C coords species b i jk.1 jk.2)]
    rw [length_combinations_with_replacement2]

/-- Witness for C1 at a concrete two-atom, one-conformation input. -/
theorem C1_output_shapes_witness :
    (0 < ([[((0:ℝ), (0:ℝ), (0:ℝ)), ((1:ℝ), (0:ℝ), (0:ℝ))]] : List (List Point)).length ∧
      0 < numAtoms [[((0:ℝ), (0:ℝ), (0:ℝ)), ((1:ℝ), (0:ℝ), (0:ℝ))]]) ∧
    ((radialAEVs ⟨5, 5, [16], [1], [1], [1], [1], [1]⟩ [0, 1]
        [[((0:ℝ), (0:ℝ), (0:ℝ)), ((1:ℝ), (0:ℝ), (0:ℝ))]] [0, 0]).getD 0 []).length
      = numAtoms [[((0:ℝ), (0:ℝ), (0:ℝ)), ((1:ℝ), (0:ℝ), (0:ℝ))]] ∧
    (((radialAEVs ⟨5, 5, [16], [1], [1], [1], [1], [1]⟩ [0, 1]
        [[((0:ℝ), (0:ℝ), (0:ℝ)), ((1:ℝ), (0:ℝ), (0:ℝ))]] [0, 0]).getD 0 []).getD 0 []).length
      = 2 * per_species_radial_length ⟨5, 5, [16], [1], [1], [1], [1], [1]⟩ ∧
    (((angularAEVs ⟨5, 5, [16], [1], [1], [1], [1], [1]⟩ [0, 1]
        [[((0:ℝ), (0:ℝ), (0:ℝ)), ((1:ℝ), (0:ℝ), (0:ℝ))]] [0, 0]).getD 0 []).getD 0 []).length
      = Nat.choose 3 2 * per_species_angular_length ⟨5, 5, [16], [1], [1], [1], [1], [1]⟩ := by
  have h := C1_output_shapes ⟨5, 5, [16], [1], [1], [1], [1], [1]⟩ [0, 1]
    [[((0:ℝ), (0:ℝ), (0:ℝ)), ((1:ℝ), (0:ℝ), (0:ℝ))]] [0, 0] 0 0
    (by simp) (by simp [numAtoms])
  exact ⟨⟨by simp, by simp [numAtoms]⟩, h.2.2.1, h.2.2.2.2.1, h.2.2.2.2.2⟩

/-- C2: computing the AEVs with the shared union neighbor list over the
batch gives, for each conformation `b`, exactly the values obtained by
computing that conformation alone with its own exact neighbor list. -/
theorem C2_union_neighbor_equiv (C : AEVConstants) (vocab : List ℕ)
    (coords : List (List Point)) (species : List ℕ) (b : ℕ)
    (hb : b < coords.length)
    (hA : ∀ conf ∈ coords, conf.length = numAtoms coords) :
    (radialAEVs C vocab [coords.getD b []] species).getD 0 []
      = (radialAEVs C vocab coords species).getD b [] ∧
    (angularAEVs C vocab [coords.getD b []] species).getD 0 []
      = (angularAEVs C vocab coords species).getD b [] := by
  have hmem : coords.getD b [] ∈ coords := getD_mem_of_lt coords b [] hb
  have hnum : numAtoms [coords.getD b []] = numAtoms coords := by
    rw [numAtoms_singleton]
    exact hA _ hmem
  constructor
  · rw [radialAEVs_getD C vocab _ species 0 (by simp),
      radialAEVs_getD C vocab coords species b hb, hnum]
    refine List.map_congr_left ?_
    intro i _
    exact congrArg (fun f => vocab.flatMap f)
      (funext fun s => radialBlock_singleton C coords species b i s hb hA)
  · rw [angularAEVs_getD C vocab _ species 0 (by simp),
      angularAEVs_getD C vocab coords species b hb, hnum]
    refine List.map_congr_left ?_
    intro i _
    exact congrArg (fun f => (combinations_with_replacement2 vocab).flatMap f)
      (funext fun jk => angularBlock_singleton C coords species b i jk.1 jk.2 hb hA)

/-- C5: the neighbor relation holds for `(i, j)` exactly when `i ≠ j` and
the distance is within the cutoff in at least one conformation of the
batch; self pairs are never adjacent. -/
theorem C5_neighbor_relation (coords : List (List Point)) (cutoff : ℝ) (i j : ℕ) :
    (neighborAdj coords cutoff i j ↔
      (i ≠ j ∧ ∃ conf ∈ coords, dist3 (atomPos conf i) (atomPos conf j) ≤ cutoff)) ∧
    ¬ neighborAdj coords cutoff i i := by
  refine ⟨neighborAdj_iff coords cutoff i j, ?_⟩
  intro h
  exact ((neighborAdj_iff coords cutoff i i).mp h).1 rfl

/-- Witness for C2 on the two-conformation batch: conformation 1 alone
(where the pair is beyond both cutoffs) agrees with the batched result. -/
theorem C2_union_neighbor_equiv_witness :
    (1 < exCoords2.length ∧ ∀ conf ∈ exCoords2, conf.length = numAtoms exCoords2) ∧
    ((radialAEVs exConsts [0] [exCoords2.getD 1 []] [0, 0]).getD 0 []
      = (radialAEVs exConsts [0] exCoords2 [0, 0]).getD 1 [] ∧
    (angularAEVs exConsts [0] [exCoords2.getD 1 []] [0, 0]).getD 0 []
      = (angularAEVs exConsts [0] exCoords2 [0, 0]).getD 1 []) := by
  have hb : 1 < exCoords2.length := by simp [exCoords2]
  have hA : ∀ conf ∈ exCoords2, conf.length = numAtoms exCoords2 := by
    intro conf h
    simp only [exCoords2, List.mem_cons, List.not_mem_nil, or_false] at h
    rcases h with rfl | rfl <;> rfl
  exact ⟨⟨hb, hA⟩, C2_union_neighbor_equiv exConsts [0] exCoords2 [0, 0] 1 hb hA⟩

lemma getD_map_real (l : List ℝ) (f : ℝ → ℝ) (n : ℕ) (h : n < l.length) :
    (l.map f).getD n 0 = f (l.getD n 0) := by
  rw [List.getD_eq_getElem _ _ (by simpa using h), List.getElem_map,
    List.getD_eq_getElem _ _ h]

lemma grid_index_lt (a b x y : ℕ) (hx : x < a) (hy : y < b) : x * b + y < a * b := by
  have h1 : x * b + y < (x + 1) * b := by
    rw [Nat.succ_mul]
    omega
  exact lt_of_lt_of_le h1 (Nat.mul_le_mul_right b (Nat.succ_le_of_lt hx))

/-- C3: each entry of the radial sub-AEV, at the row-major position of
`(eta, shift)`, is the sum over neighbors of
`0.25 * exp(-eta * (dist - shift)^2) * fc(dist, Rcr)`. -/
theorem C3_radial_formula (C : AEVConstants) (center : Point)
    (neighbors : List Point) (ei si : ℕ)
    (hei : ei < C.EtaR.length) (hsi : si < C.ShfR.length) :
    (radial_subaev C center neighbors).getD (ei * C.ShfR.length + si) 0
      = (neighbors.map fun n =>
          0.25 * Real.exp (-(C.EtaR.getD ei 0) * (dist3 center n - C.ShfR.getD si 0) ^ 2) *
            cutoff_cosine (dist3 center n) C.Rcr).sum := by
  unfold radial_subaev
  rw [getD_flatMap_grid _ _ C.ShfR.length (fun eta _ => by simp) ei si hei hsi]
  rw [getD_map_real _ _ si hsi]
  rfl

/-- Witness for C3, the spec's concrete scenario A: two atoms at distance
1, `EtaR = {16}`, `ShfR = {1}`, `Rcr = 5`; the unique radial entry equals
`0.25 * fc(1, 5)`. -/
theorem C3_radial_formula_witness :
    (0 < (exConsts.EtaR).length ∧ 0 < (exConsts.ShfR).length) ∧
    (radial_subaev exConsts (0, 0, 0) [((1 : ℝ), 0, 0)]).getD 0 0
      = 0.25 * cutoff_cosine 1 5 := by
  refine ⟨⟨by simp [exConsts], by simp [exConsts]⟩, ?_⟩
  have h := C3_radial_formula exConsts (0, 0, 0) [((1 : ℝ), 0, 0)] 0 0
    (by simp [exConsts]) (by simp [exConsts])
  have hd : dist3 ((0 : ℝ), (0 : ℝ), (0 : ℝ)) ((1 : ℝ), (0 : ℝ), (0 : ℝ)) = 1 := by
    unfold dist3 dot3 sub3
    norm_num
  simp only [exConsts, List.length_singleton, Nat.zero_mul, Nat.zero_add] at h ⊢
  rw [h, List.map_singleton, List.sum_singleton, hd]
  norm_num

/-- C4: each entry of the angular sub-AEV, at the row-major position of
`(eta, zeta, shiftR, shiftA)`, is the sum over neighbor pairs of
`2 * ((1 + cos(angle - shiftA))/2)^zeta * exp(-eta*((d1+d2)/2 - shiftR)^2)
* fc(d1, Rca) * fc(d2, Rca)` with
`angle = acos(0.95 * dot / (d1 * d2))`. -/
theorem C4_angular_formula (C : AEVConstants) (center : Point)
    (pairs : List (Point × Point)) (ei zi ai zsi : ℕ)
    (hei : ei < C.EtaA.length) (hzi : zi < C.Zeta.length)
    (hai : ai < C.ShfA.length) (hzsi : zsi < C.ShfZ.length) :
    (angular_subaev C center pairs).getD
        (((ei * C.Zeta.length + zi) * C.ShfA.length + ai) * C.ShfZ.length + zsi) 0
      = (pairs.map fun pq =>
          2 * ((1 + Real.cos (Real.arccos
                (0.95 * dot3 (sub3 pq.1 center) (sub3 pq.2 center) /
                  (dist3 center pq.1 * dist3 center pq.2)) - C.ShfZ.getD zsi 0)) / 2)
              ^ (C.Zeta.getD zi 0) *
            Real.exp (-(C.EtaA.getD ei 0) *
              ((dist3 center pq.1 + dist3 center pq.2) / 2 - C.ShfA.getD ai 0) ^ 2) *
            cutoff_cosine (dist3 center pq.1) C.Rca *
            cutoff_cosine (dist3 center pq.2) C.Rca).sum := by
  unfold angular_subaev
  have hidx : ((ei * C.Zeta.length + zi) * C.ShfA.length + ai) * C.ShfZ.length + zsi
      = ei * (C.Zeta.length * (C.ShfA.length * C.ShfZ.length))
        + (zi * (C.ShfA.length * C.ShfZ.length) + (ai * C.ShfZ.length + zsi)) := by
    ring
  rw [hidx]
  rw [getD_flatMap_grid _ _ (C.Zeta.length * (C.ShfA.length * C.ShfZ.length))
    (fun eta _ => length_flatMap_const _ _ _ (fun zeta _ =>
      length_flatMap_const _ _ _ (fun shiftR _ => by simp)))
    ei _ hei (grid_index_lt _ _ _ _ hzi (grid_index_lt _ _ _ _ hai hzsi))]
  rw [getD_flatMap_grid _ _ (C.ShfA.length * C.ShfZ.length)
    (fun zeta _ => length_flatMap_const _ _ _ (fun shiftR _ => by simp))
    zi _ hzi (grid_index_lt _ _ _ _ hai hzsi)]
  rw [getD_flatMap_grid _ _ C.ShfZ.length (fun shiftR _ => by simp) ai zsi hai hzsi]
  rw [getD_map_real _ _ zsi hzsi]
  rfl

/-- Witness for C4, the spec's concrete scenario B shape: one pair at right
angle, both distances 1, `EtaA = {0}`, `Zeta = {1}`, `ShfA = {0}`,
`ShfZ = {0}`, `Rca = 5`; the unique angular entry is `fc(1,5)^2`. -/
theorem C4_angular_formula_witness :
    (0 < exConstsAng.EtaA.length ∧ 0 < exConstsAng.Zeta.length ∧
      0 < exConstsAng.ShfA.length ∧ 0 < exConstsAng.ShfZ.length) ∧
    (angular_subaev exConstsAng (0, 0, 0)
        [(((1 : ℝ), 0, 0), ((0 : ℝ), 1, 0))]).getD 0 0
      = cutoff_cosine 1 5 * cutoff_cosine 1 5 := by
  refine ⟨⟨by simp [exConstsAng], by simp [exConstsAng], by simp [exConstsAng],
    by simp [exConstsAng]⟩, ?_⟩
  have h := C4_angular_formula exConstsAng (0, 0, 0)
    [(((1 : ℝ), 0, 0), ((0 : ℝ), 1, 0))] 0 0 0 0
    (by simp [exConstsAng]) (by simp [exConstsAng]) (by simp [exConstsAng])
    (by simp [exConstsAng])
  have hd1 : dist3 ((0 : ℝ), (0 : ℝ), (0 : ℝ)) ((1 : ℝ), (0 : ℝ), (0 : ℝ)) = 1 := by
    unfold dist3 dot3 sub3
    norm_num
  have hd2 : dist3 ((0 : ℝ), (0 : ℝ), (0 : ℝ)) ((0 : ℝ), (1 : ℝ), (0 : ℝ)) = 1 := by
    unfold dist3 dot3 sub3
    norm_num
  have hdot : dot3 (sub3 ((1 : ℝ), (0 : ℝ), (0 : ℝ)) ((0 : ℝ), (0 : ℝ), (0 : ℝ)))
      (sub3 ((0 : ℝ), (1 : ℝ), (0 : ℝ)) ((0 : ℝ), (0 : ℝ), (0 : ℝ))) = 0 := by
    unfold dot3 sub3
    norm_num
  simp only [exConstsAng, List.length_singleton, Nat.zero_mul, Nat.zero_add,
    Nat.mul_one] at h ⊢
  rw [h, List.map_singleton, List.sum_singleton, hd1, hd2, hdot]
  norm_num [Real.arccos_zero, Real.cos_pi_div_two, Real.rpow_one, Real.exp_zero]

lemma speciesNeighborIndices_of_absent (coords : List (List Point)) (species : List ℕ)
    (cutoff : ℝ) (i s : ℕ) (h : ¬ speciesPresent coords species s) :
    speciesNeighborIndices coords species cutoff i s = [] := by
  unfold speciesNeighborIndices
  refine List.filter_eq_nil_iff.mpr ?_
  intro a ha hpred
  simp only [decide_eq_true_eq] at hpred
  exact h ⟨a, ha, hpred.1⟩

lemma angularBlock_eq_pairs (C : AEVConstants) (coords : List (List Point))
    (species : List ℕ) (b i sj sk : ℕ) :
    angularBlock C coords species b i sj sk
      = if (if sj = sk
            then combinations2 (speciesNeighborIndices coords species C.Rca i sj)
            else cartesian_prod (speciesNeighborIndices coords species C.Rca i sj)
              (speciesNeighborIndices coords species C.Rca i sk)) = []
        then List.replicate (per_species_angular_length C) 0
        else angular_subaev C (atomPos (coords.getD b []) i)
          ((if sj = sk
            then combinations2 (speciesNeighborIndices coords species C.Rca i sj)
            else cartesian_prod (speciesNeighborIndices coords species C.Rca i sj)
              (speciesNeighborIndices coords species C.Rca i sk)).map
            (pairPositions (coords.getD b []))) := by
  by_cases hjk : sj = sk
  · subst hjk
    rw [if_pos rfl]
    simp only [angularBlock]
    by_cases hpres : speciesPresent coords species sj ∧ speciesPresent coords species sj
    · rw [if_pos hpres, if_neg (fun hc => hc.1 rfl)]
      by_cases hlen : 1 < (speciesNeighborIndices coords species C.Rca i sj).length
      · rw [if_pos hlen, if_neg (fun h => by
          have := (combinations2_eq_nil _).mp h
          omega)]
      · rw [if_neg hlen, if_pos ((combinations2_eq_nil _).mpr (by omega))]
    · rw [if_neg hpres]
      have hJ : speciesNeighborIndices coords species C.Rca i sj = [] :=
        speciesNeighborIndices_of_absent coords species C.Rca i sj
          (fun h => hpres ⟨h, h⟩)
      rw [hJ]
      simp [combinations2]
  · rw [if_neg hjk]
    simp only [angularBlock]
    by_cases hpres : speciesPresent coords species sj ∧ speciesPresent coords species sk
    · rw [if_pos hpres]
      by_cases hJ : speciesNeighborIndices coords species C.Rca i sj = []
      · rw [if_neg (fun hc => hc.2 hJ), if_neg (by rw [hJ]; simp),
          if_pos ((cartesian_prod_eq_nil _ _).mpr (Or.inl hJ))]
      · rw [if_pos ⟨hjk, hJ⟩]
        by_cases hK : speciesNeighborIndices coords species C.Rca i sk = []
        · rw [if_neg (fun hc => hc hK),
            if_pos ((cartesian_prod_eq_nil _ _).mpr (Or.inr hK))]
        · rw [if_pos hK, if_neg (fun h => by
            rcases (cartesian_prod_eq_nil _ _).mp h with h1 | h1
            · exact hJ h1
            · exact hK h1)]
    · rw [if_neg hpres]
      rcases not_and_or.mp hpres with h | h
      · rw [if_pos ((cartesian_prod_eq_nil _ _).mpr
          (Or.inl (speciesNeighborIndices_of_absent coords species C.Rca i sj h)))]
      · rw [if_pos ((cartesian_prod_eq_nil _ _).mpr
          (Or.inr (speciesNeighborIndices_of_absent coords species C.Rca i sk h)))]

/-- C6: the neighbor-pair list of a center atom for an unordered species
pair `(j, k)` is the 2-element combinations of the species-`j` angular
neighbors when `j = k` (empty exactly when fewer than 2 such neighbors)
and the cartesian product of the species-`j` and species-`k` angular
neighbors when `j ≠ k` (empty exactly when either is empty); an empty list
yields the zero block instead of an error. -/
theorem C6_pair_generation (C : AEVConstants) (coords : List (List Point))
    (species : List ℕ) (b i sj sk : ℕ) :
    (∀ pairsIdx : List (ℕ × ℕ),
      pairsIdx = (if sj = sk
          then combinations2 (speciesNeighborIndices coords species C.Rca i sj)
          else cartesian_prod (speciesNeighborIndices coords species C.Rca i sj)
            (speciesNeighborIndices coords species C.Rca i sk)) →
      angularBlock C coords species b i sj sk
        = if pairsIdx = [] then List.replicate (per_species_angular_length C) 0
          else angular_subaev C (atomPos (coords.getD b []) i)
            (pairsIdx.map (pairPositions (coords.getD b [])))) ∧
    (sj = sk →
      (combinations2 (speciesNeighborIndices coords species C.Rca i sj) = []
        ↔ (speciesNeighborIndices coords species C.Rca i sj).length < 2)) ∧
    (sj ≠ sk →
      (cartesian_prod (speciesNeighborIndices coords species C.Rca i sj)
          (speciesNeighborIndices coords species C.Rca i sk) = []
        ↔ speciesNeighborIndices coords species C.Rca i sj = []
          ∨ speciesNeighborIndices coords species C.Rca i sk = [])) := by
  refine ⟨?_, ?_, ?_⟩
  · intro pairsIdx hp
    rw [hp]
    exact angularBlock_eq_pairs C coords species b i sj sk
  · intro _
    rw [combinations2_eq_nil]
    omega
  · intro _
    exact cartesian_prod_eq_nil _ _

/-- Witness for C6 at a concrete input: both species labels 0, atom 0 has
exactly one neighbor of species 0, so the pair list is empty and the block
is the zero vector. -/
theorem C6_pair_generation_witness :
    angularBlock exConsts exConf1 [0, 0] 0 0 0 0
      = List.replicate (per_species_angular_length exConsts) 0 := by
  have h := (C6_pair_generation exConsts exConf1 [0, 0] 0 0 0 0).1
    (if (0 : ℕ) = 0
      then combinations2 (speciesNeighborIndices exConf1 [0, 0] exConsts.Rca 0 0)
      else cartesian_prod (speciesNeighborIndices exConf1 [0, 0] exConsts.Rca 0 0)
        (speciesNeighborIndices exConf1 [0, 0] exConsts.Rca 0 0)) rfl
  rw [h]
  have hinds : speciesNeighborIndices exConf1 [0, 0] exConsts.Rca 0 0 = [1] := by
    unfold speciesNeighborIndices
    have hn : numAtoms exConf1 = 2 := rfl
    rw [hn]
    have h0 : ¬ (([0, 0] : List ℕ).getD 0 0 = 0 ∧ neighborAdj exConf1 exConsts.Rca 0 0) := by
      rintro ⟨-, hadj⟩
      exact ((neighborAdj_iff exConf1 exConsts.Rca 0 0).mp hadj).1 rfl
    have h1 : (([0, 0] : List ℕ).getD 1 0 = 0 ∧ neighborAdj exConf1 exConsts.Rca 0 1) := by
      refine ⟨rfl, (neighborAdj_iff exConf1 exConsts.Rca 0 1).mpr ⟨by omega, ?_⟩⟩
      refine ⟨[(0, 0, 0), ((1 : ℝ), 0, 0)], by simp [exConf1], ?_⟩
      have hd : dist3 (atomPos [(0, 0, 0), ((1 : ℝ), 0, 0)] 0)
          (atomPos [(0, 0, 0), ((1 : ℝ), 0, 0)] 1) = 1 := by
        show dist3 ((0 : ℝ), (0 : ℝ), (0 : ℝ)) ((1 : ℝ), (0 : ℝ), (0 : ℝ)) = 1
        unfold dist3 dot3 sub3
        norm_num
      rw [hd]
      norm_num [exConsts]
    show List.filter _ [0, 1] = [1]
    rw [List.filter_cons, List.filter_cons]
    simp only [h0, h1, decide_eq_true_eq, if_neg, if_pos]
    simp [h0, h1]
  rw [hinds]
  simp [combinations2]

/-- C7: if atom `i` has no radial neighbors of species `s`, its radial
sub-block for `s` is the exact zero vector; if the neighbor-pair list for
a species pair `(sj, sk)` is empty, the angular sub-block is the exact
zero vector. -/
theorem C7_zero_fill (C : AEVConstants) (coords : List (List Point))
    (species : List ℕ) (b i s sj sk : ℕ)
    (hrad : speciesNeighborIndices coords species C.Rcr i s = [])
    (hang : (if sj = sk
        then combinations2 (speciesNeighborIndices coords species C.Rca i sj)
        else cartesian_prod (speciesNeighborIndices coords species C.Rca i sj)
          (speciesNeighborIndices coords species C.Rca i sk)) = []) :
    radialBlock C coords species b i s = List.replicate (per_species_radial_length C) 0 ∧
    angularBlock C coords species b i sj sk
      = List.replicate (per_species_angular_length C) 0 := by
  constructor
  · simp only [radialBlock, hrad]
    split_ifs with h1 h2
    · exact absurd rfl h2
    · rfl
    · rfl
  · rw [angularBlock_eq_pairs C coords species b i sj sk, if_pos hang]

/-- Witness for C7: species 1 does not occur, so atom 0 has no species-1
neighbors and both its species-1 blocks are zero vectors. -/
theorem C7_zero_fill_witness :
    (speciesNeighborIndices exConf1 [0, 0] exConsts.Rcr 0 1 = [] ∧
      (if (1 : ℕ) = 1
        then combinations2 (speciesNeighborIndices exConf1 [0, 0] exConsts.Rca 0 1)
        else cartesian_prod (speciesNeighborIndices exConf1 [0, 0] exConsts.Rca 0 1)
          (speciesNeighborIndices exConf1 [0, 0] exConsts.Rca 0 1)) = []) ∧
    (radialBlock exConsts exConf1 [0, 0] 0 0 1
        = List.replicate (per_species_radial_length exConsts) 0 ∧
      angularBlock exConsts exConf1 [0, 0] 0 0 1 1
        = List.replicate (per_species_angular_length exConsts) 0) := by
  have habs : ¬ speciesPresent exConf1 [0, 0] 1 := by
    rintro ⟨t, ht, heq⟩
    have hn : numAtoms exConf1 = 2 := rfl
    rw [hn] at ht
    simp only [List.mem_range] at ht
    interval_cases t <;> simp [List.getD] at heq
  have hrad := speciesNeighborIndices_of_absent exConf1 [0, 0] exConsts.Rcr 0 1 habs
  have hang : (if (1 : ℕ) = 1
      then combinations2 (speciesNeighborIndices exConf1 [0, 0] exConsts.Rca 0 1)
      else cartesian_prod (speciesNeighborIndices exConf1 [0, 0] exConsts.Rca 0 1)
        (speciesNeighborIndices exConf1 [0, 0] exConsts.Rca 0 1)) = [] := by
    rw [if_pos rfl, speciesNeighborIndices_of_absent exConf1 [0, 0] exConsts.Rca 0 1 habs]
    rfl
  exact ⟨⟨hrad, hang⟩, C7_zero_fill exConsts exConf1 [0, 0] 0 0 1 1 1 hrad hang⟩

/-- C8: an atom whose species label is not in the vocabulary contributes no
neighbor to any known species group (radial or angular, any cutoff), while
the output still carries a full-length AEV row for every atom, including
that one. -/
theorem C8_unknown_species (C : AEVConstants) (vocab : List ℕ)
    (coords : List (List Point)) (species : List ℕ) (u b : ℕ)
    (hu : species.getD u 0 ∉ vocab) (hb : b < coords.length)
    (hu2 : u < numAtoms coords) :
    (∀ s ∈ vocab, ∀ i : ℕ, ∀ cutoff : ℝ,
      u ∉ speciesNeighborIndices coords species cutoff i s) ∧
    ((radialAEVs C vocab coords species).getD b []).length = numAtoms coords ∧
    ((angularAEVs C vocab coords species).getD b []).length = numAtoms coords ∧
    (((radialAEVs C vocab coords species).getD b []).getD u []).length
      = vocab.length * per_species_radial_length C ∧
    (((angularAEVs C vocab coords species).getD b []).getD u []).length
      = Nat.choose (vocab.length + 1) 2 * per_species_angular_length C := by
  refine ⟨?_, ?_, ?_, ?_, ?_⟩
  · intro s hs i cutoff hmem
    unfold speciesNeighborIndices at hmem
    rw [List.mem_filter] at hmem
    simp only [decide_eq_true_eq] at hmem
    refine hu ?_
    rw [hmem.2.1]
    exact hs
  · rw [radialAEVs_getD C vocab coords species b hb]
    simp
  · rw [angularAEVs_getD C vocab coords species b hb]
    simp
  · rw [radialAEVs_getD C vocab coords species b hb, getD_map_range _ _ _ _ hu2]
    exact length_flatMap_const _ _ _ (fun s _ => length_radialBlock C coords species b u s)
  · rw [angularAEVs_getD C vocab coords species b hb, getD_map_range _ _ _ _ hu2,
      length_flatMap_const _ _ (per_species_angular_length C)
        (fun jk _ => length_angularBlock C coords species b u jk.1 jk.2),
      length_combinations_with_replacement2]

/-- Witness for C8: atom 1 has label 1, absent from the vocabulary `[0]`;
it joins no species-0 group yet still has a full-length row. -/
theorem C8_unknown_species_witness :
    ((([0, 1] : List ℕ).getD 1 0 ∉ ([0] : List ℕ)) ∧ 0 < exConf1.length ∧
      1 < numAtoms exConf1) ∧
    (∀ s ∈ ([0] : List ℕ), ∀ i : ℕ, ∀ cutoff : ℝ,
      1 ∉ speciesNeighborIndices exConf1 [0, 1] cutoff i s) ∧
    (((radialAEVs exConsts [0] exConf1 [0, 1]).getD 0 []).getD 1 []).length
      = 1 * per_species_radial_length exConsts := by
  have hu : (([0, 1] : List ℕ).getD 1 0 ∉ ([0] : List ℕ)) := by simp [List.getD]
  have hb : (0 : ℕ) < exConf1.length := by simp [exConf1]
  have hu2 : 1 < numAtoms exConf1 := by norm_num [numAtoms, exConf1]
  have h := C8_unknown_species exConsts [0] exConf1 [0, 1] 1 0 hu hb hu2
  exact ⟨⟨hu, hb, hu2⟩, h.1, by simpa using h.2.2.2.1⟩

/-- C9: the cutoff function is the cosine form below the cutoff and zero
above it, takes the exact values 0 at `Rc` and 1 at 0, and is monotonically
non-increasing on `[0, Rc]`. -/
theorem C9_cutoff_function (Rc : ℝ) (hRc : 0 < Rc) :
    (∀ r, r ≤ Rc → cutoff_cosine r Rc = 0.5 * Real.cos (Real.pi * r / Rc) + 0.5) ∧
    (∀ r, Rc < r → cutoff_cosine r Rc = 0) ∧
    cutoff_cosine Rc Rc = 0 ∧
    cutoff_cosine 0 Rc = 1 ∧
    (∀ r1 r2, 0 ≤ r1 → r1 ≤ r2 → r2 ≤ Rc →
      cutoff_cosine r2 Rc ≤ cutoff_cosine r1 Rc) := by
  refine ⟨fun r hr => if_pos hr, fun r hr => cutoff_cosine_of_gt r Rc hr, ?_, ?_, ?_⟩
  · rw [cutoff_cosine, if_pos le_rfl, mul_div_assoc, div_self (ne_of_gt hRc), mul_one,
      Real.cos_pi]
    norm_num
  · rw [cutoff_cosine, if_pos hRc.le, mul_zero, zero_div, Real.cos_zero]
    norm_num
  · intro r1 r2 h0 h12 h2
    rw [cutoff_cosine, if_pos h2, cutoff_cosine, if_pos (h12.trans h2)]
    have hcos : Real.cos (Real.pi * r2 / Rc) ≤ Real.cos (Real.pi * r1 / Rc) := by
      apply Real.cos_le_cos_of_nonneg_of_le_pi
      · exact div_nonneg (mul_nonneg Real.pi_pos.le h0) hRc.le
      · rw [div_le_iff₀ hRc]
        calc Real.pi * r2 ≤ Real.pi * Rc :=
              mul_le_mul_of_nonneg_left h2 Real.pi_pos.le
          _ = Real.pi * Rc := rfl
      · exact (div_le_div_iff_of_pos_right hRc).mpr (mul_le_mul_of_nonneg_left h12 Real.pi_pos.le)
    linarith

/-- Witness for C9 at `Rc = 5`. -/
theorem C9_cutoff_function_witness :
    (0 < (5 : ℝ)) ∧ cutoff_cosine 5 5 = 0 ∧ cutoff_cosine 0 5 = 1 ∧
      cutoff_cosine 3 5 ≤ cutoff_cosine 2 5 := by
  have h := C9_cutoff_function 5 (by norm_num)
  exact ⟨by norm_num, h.2.2.1, h.2.2.2.1,
    h.2.2.2.2 2 3 (by norm_num) (by norm_num) (by norm_num)⟩

/-- C10: whenever both atoms of a neighbor pair are at strictly positive
distance from the center, the argument handed to `acos` has absolute value
at most 0.95 (Cauchy-Schwarz), hence lies inside the domain of `acos`. -/
theorem C10_acos_argument (center : Point) (pq : Point × Point)
    (h1 : 0 < dist3 center pq.1) (h2 : 0 < dist3 center pq.2) :
    |cos_angles center pq| ≤ 0.95 ∧
    -1 ≤ cos_angles center pq ∧ cos_angles center pq ≤ 1 := by
  have habs : |cos_angles center pq| ≤ 0.95 := by
    unfold cos_angles
    have hA : 0 ≤ dot3 (sub3 pq.1 center) (sub3 pq.1 center) := by
      unfold dot3
      nlinarith [sq_nonneg (sub3 pq.1 center).1, sq_nonneg (sub3 pq.1 center).2.1,
        sq_nonneg (sub3 pq.1 center).2.2]
    have hcs : (dot3 (sub3 pq.1 center) (sub3 pq.2 center)) ^ 2
        ≤ (dot3 (sub3 pq.1 center) (sub3 pq.1 center))
          * (dot3 (sub3 pq.2 center) (sub3 pq.2 center)) := by
      unfold dot3
      nlinarith [sq_nonneg ((sub3 pq.1 center).1 * (sub3 pq.2 center).2.1
          - (sub3 pq.1 center).2.1 * (sub3 pq.2 center).1),
        sq_nonneg ((sub3 pq.1 center).1 * (sub3 pq.2 center).2.2
          - (sub3 pq.1 center).2.2 * (sub3 pq.2 center).1),
        sq_nonneg ((sub3 pq.1 center).2.1 * (sub3 pq.2 center).2.2
          - (sub3 pq.1 center).2.2 * (sub3 pq.2 center).2.1)]
    have hdot : |dot3 (sub3 pq.1 center) (sub3 pq.2 center)|
        ≤ dist3 center pq.1 * dist3 center pq.2 := by
      show _ ≤ Real.sqrt _ * Real.sqrt _
      rw [← Real.sqrt_mul hA, ← Real.sqrt_sq_eq_abs]
      exact Real.sqrt_le_sqrt hcs
    have hDpos : 0 < dist3 center pq.1 * dist3 center pq.2 := mul_pos h1 h2
    rw [abs_div, abs_mul, abs_of_pos hDpos, div_le_iff₀ hDpos,
      show |(0.95 : ℝ)| = 0.95 by norm_num]
    exact mul_le_mul_of_nonneg_left hdot (by norm_num)
  have hle : |cos_angles center pq| ≤ 1 := habs.trans (by norm_num)
  exact ⟨habs, (abs_le.mp hle).1, (abs_le.mp hle).2⟩

/-- Witness for C10 at a right-angle pair at unit distances. -/
theorem C10_acos_argument_witness :
    (0 < dist3 ((0 : ℝ), (0 : ℝ), (0 : ℝ)) ((1 : ℝ), (0 : ℝ), (0 : ℝ)) ∧
      0 < dist3 ((0 : ℝ), (0 : ℝ), (0 : ℝ)) ((0 : ℝ), (1 : ℝ), (0 : ℝ))) ∧
    |cos_angles ((0 : ℝ), (0 : ℝ), (0 : ℝ))
        (((1 : ℝ), (0 : ℝ), (0 : ℝ)), ((0 : ℝ), (1 : ℝ), (0 : ℝ)))| ≤ 0.95 := by
  have hd1 : dist3 ((0 : ℝ), (0 : ℝ), (0 : ℝ)) ((1 : ℝ), (0 : ℝ), (0 : ℝ)) = 1 := by
    unfold dist3 dot3 sub3
    norm_num
  have hd2 : dist3 ((0 : ℝ), (0 : ℝ), (0 : ℝ)) ((0 : ℝ), (1 : ℝ), (0 : ℝ)) = 1 := by
    unfold dist3 dot3 sub3
    norm_num
  have h1 : 0 < dist3 ((0 : ℝ), (0 : ℝ), (0 : ℝ)) ((1 : ℝ), (0 : ℝ), (0 : ℝ)) := by
    rw [hd1]
    norm_num
  have h2 : 0 < dist3 ((0 : ℝ), (0 : ℝ), (0 : ℝ)) ((0 : ℝ), (1 : ℝ), (0 : ℝ)) := by
    rw [hd2]
    norm_num
  exact ⟨⟨h1, h2⟩, (C10_acos_argument ((0 : ℝ), (0 : ℝ), (0 : ℝ))
    (((1 : ℝ), (0 : ℝ), (0 : ℝ)), ((0 : ℝ), (1 : ℝ), (0 : ℝ))) h1 h2).1⟩

end
